import Mathlib

/-!
Verification of the condition-tree engine and JSON preview contract of the
Policy-Generator editor.

The development shallowly embeds the data model and edit operations of the
editor: JSON documents are modelled by `JValue` (numbers restricted to
integers; the editor's serializer is `JSON.stringify(policy, null, 2)` and
the manual-edit parser is `JSON.parse`), and the recursive condition tree by
`Condition`.  Each operation definition carries a comment naming the source
function it embeds.
-/

namespace PolicyGen

/-- JSON values as produced and consumed by the editor.  Objects keep their
fields in insertion order, matching JavaScript object semantics.  Numbers are
restricted to integers: the only numeric fields the engine writes are count
thresholds and parsed numeric inputs, and floating point is outside this
embedding. -/
inductive JValue where
  | null : JValue
  | bool (b : Bool) : JValue
  | num (n : Int) : JValue
  | str (s : String) : JValue
  | arr (elems : List JValue) : JValue
  | obj (fields : List (String × JValue)) : JValue

/-- Opening brace character. -/
def lbr : Char := '\x7b'

/-- Closing brace character. -/
def rbr : Char := '\x7d'

/-- Two-space indentation for depth `d`, as produced by
`JSON.stringify(v, null, 2)`. -/
def ws2 (d : Nat) : List Char := List.replicate (2 * d) ' '

/-- Lower-case hexadecimal digit for `n < 16`. -/
def hexDig (n : Nat) : Char :=
  if n < 10 then Char.ofNat (48 + n) else Char.ofNat (87 + n)

/-- Escape a single character the way `JSON.stringify` quotes strings:
quote and backslash escaped, the named control escapes, and `\u00XX` for
all other control characters. -/
def escChar (c : Char) : List Char :=
  if c = '"' then ['\\', '"']
  else if c = '\\' then ['\\', '\\']
  else if c = '\x08' then ['\\', 'b']
  else if c = '\x0c' then ['\\', 'f']
  else if c = '\n' then ['\\', 'n']
  else if c = '\r' then ['\\', 'r']
  else if c = '\t' then ['\\', 't']
  else if c.toNat < 32 then
    ['\\', 'u', '0', '0', hexDig (c.toNat / 16), hexDig (c.toNat % 16)]
  else [c]

/-- Escape a whole character list. -/
def escStr : List Char → List Char
  | [] => []
  | c :: cs => escChar c ++ escStr cs

/-- Decimal digit character for `n < 10`. -/
def digitCh (n : Nat) : Char := Char.ofNat (48 + n)

/-- Decimal digits of a natural number, most significant first. -/
def natDigs (n : Nat) : List Char :=
  if _h : n < 10 then [digitCh n]
  else natDigs (n / 10) ++ [digitCh (n % 10)]
  decreasing_by exact Nat.div_lt_self (by omega) (by omega)

/-- Decimal rendering of an integer. -/
def intChars : Int → List Char
  | .ofNat n => natDigs n
  | .negSucc m => '-' :: natDigs (m + 1)

mutual

/-- Characters of `JSON.stringify(v, null, 2)` at indentation depth `d`. -/
def render : Nat → JValue → List Char
  | _, .null => ['n', 'u', 'l', 'l']
  | _, .bool true => ['t', 'r', 'u', 'e']
  | _, .bool false => ['f', 'a', 'l', 's', 'e']
  | _, .num n => intChars n
  | _, .str s => '"' :: (escStr s.data ++ ['"'])
  | _, .arr [] => ['[', ']']
  | d, .arr (x :: xs) =>
      '[' :: '\n' :: (ws2 (d + 1) ++ render (d + 1) x ++ renderTail (d + 1) xs
        ++ '\n' :: (ws2 d ++ [']']))
  | _, .obj [] => [lbr, rbr]
  | d, .obj (f :: fs) =>
      lbr :: '\n' :: (ws2 (d + 1) ++ renderField (d + 1) f ++ renderFieldTail (d + 1) fs
        ++ '\n' :: (ws2 d ++ [rbr]))

/-- Rendering of the second and later array elements, each preceded by a
comma, newline and indentation. -/
def renderTail : Nat → List JValue → List Char
  | _, [] => []
  | d, x :: xs => ',' :: '\n' :: (ws2 d ++ render d x ++ renderTail d xs)

/-- Rendering of one object member: quoted key, colon, space, value. -/
def renderField : Nat → String × JValue → List Char
  | d, (k, v) => '"' :: (escStr k.data ++ ['"', ':', ' '] ++ render d v)

/-- Rendering of the second and later object members. -/
def renderFieldTail : Nat → List (String × JValue) → List Char
  | _, [] => []
  | d, f :: fs => ',' :: '\n' :: (ws2 d ++ renderField d f ++ renderFieldTail d fs)

end

/-- The serializer of the preview pane:
`JSON.stringify(policy, null, 2)` (PreviewSection.tsx). -/
def stringify (v : JValue) : String := String.mk (render 0 v)

/-- JSON whitespace characters accepted between tokens by `JSON.parse`. -/
def isWsChar (c : Char) : Bool := c = ' ' || c = '\n' || c = '\t' || c = '\r'

/-- Drop leading JSON whitespace. -/
def skipWs : List Char → List Char
  | [] => []
  | c :: cs => if isWsChar c then skipWs cs else c :: cs

/-- Value of one hexadecimal digit, either case. -/
def hexVal (c : Char) : Option Nat :=
  if '0' ≤ c ∧ c ≤ '9' then some (c.toNat - 48)
  else if 'a' ≤ c ∧ c ≤ 'f' then some (c.toNat - 87)
  else if 'A' ≤ c ∧ c ≤ 'F' then some (c.toNat - 55)
  else none

/-- Decode a single-character string escape (everything except `\uXXXX`). -/
def escDecode (e : Char) : Option Char :=
  if e = '"' then some '"'
  else if e = '\\' then some '\\'
  else if e = '/' then some '/'
  else if e = 'b' then some '\x08'
  else if e = 'f' then some '\x0c'
  else if e = 'n' then some '\n'
  else if e = 'r' then some '\r'
  else if e = 't' then some '\t'
  else none

/-- Parse the body of a JSON string up to and including the closing quote,
returning the decoded characters and the remaining input.  `\uXXXX` escapes
are decoded through `Char.ofNat`; surrogate code units, which a JavaScript
string could hold, are outside this embedding (the serializer under study
never emits them). -/
def psBody : List Char → Option (List Char × List Char)
  | [] => none
  | '\\' :: [] => none
  | '\\' :: 'u' :: h1 :: h2 :: h3 :: h4 :: cs4 =>
      match hexVal h1, hexVal h2, hexVal h3, hexVal h4 with
      | some a, some b, some c3, some d4 =>
        (psBody cs4).map
          (fun p => (Char.ofNat (((a * 16 + b) * 16 + c3) * 16 + d4) :: p.1, p.2))
      | _, _, _, _ => none
  | '\\' :: e :: cs =>
      match escDecode e with
      | some ch => (psBody cs).map (fun p => (ch :: p.1, p.2))
      | none => none
  | c :: cs =>
      if c = '"' then some ([], cs)
      else (psBody cs).map (fun p => (c :: p.1, p.2))

/-- Numeric value of a decimal digit character. -/
def digitVal (c : Char) : Nat := c.toNat - 48

/-- Consume a run of decimal digits, accumulating their value. -/
def takeDigits (acc : Nat) : List Char → Nat × List Char
  | [] => (acc, [])
  | c :: cs => if c.isDigit then takeDigits (acc * 10 + digitVal c) cs else (acc, c :: cs)

/-- Parse a JSON number restricted to optionally-signed decimal integers. -/
def parseNumber : List Char → Option (JValue × List Char)
  | [] => none
  | c :: rest =>
    if c = '-' then
      match rest with
      | [] => none
      | c2 :: _ =>
        if c2.isDigit then
          let p := takeDigits 0 rest
          some (.num (-(p.1 : Int)), p.2)
        else none
    else if c.isDigit then
      let p := takeDigits 0 (c :: rest)
      some (.num (p.1 : Int), p.2)
    else none

mutual

/-- Fuel-indexed model of `JSON.parse` on one value: skips leading
whitespace, then dispatches on the first character. -/
def parseValue : Nat → List Char → Option (JValue × List Char)
  | 0, _ => none
  | fuel + 1, input =>
    match skipWs input with
    | [] => none
    | c :: rest =>
      if c = 'n' then
        match rest with
        | 'u' :: 'l' :: 'l' :: r => some (.null, r)
        | _ => none
      else if c = 't' then
        match rest with
        | 'r' :: 'u' :: 'e' :: r => some (.bool true, r)
        | _ => none
      else if c = 'f' then
        match rest with
        | 'a' :: 'l' :: 's' :: 'e' :: r => some (.bool false, r)
        | _ => none
      else if c = '"' then
        match psBody rest with
        | some (cs, r) => some (.str (String.mk cs), r)
        | none => none
      else if c = '[' then
        match skipWs rest with
        | [] => none
        | c2 :: r2 =>
          if c2 = ']' then some (.arr [], r2) else parseElems fuel (c2 :: r2)
      else if c = lbr then
        match skipWs rest with
        | [] => none
        | c2 :: r2 =>
          if c2 = rbr then some (.obj [], r2) else parseMembers fuel (c2 :: r2)
      else parseNumber (c :: rest)

/-- Parse the elements of a non-empty array after the opening bracket. -/
def parseElems : Nat → List Char → Option (JValue × List Char)
  | 0, _ => none
  | fuel + 1, input =>
    match parseValue fuel input with
    | none => none
    | some (v, r) =>
      match skipWs r with
      | [] => none
      | c :: r2 =>
        if c = ',' then
          match parseElems fuel r2 with
          | some (.arr vs, r3) => some (.arr (v :: vs), r3)
          | _ => none
        else if c = ']' then some (.arr [v], r2)
        else none

/-- Parse the members of a non-empty object after the opening brace. -/
def parseMembers : Nat → List Char → Option (JValue × List Char)
  | 0, _ => none
  | fuel + 1, input =>
    match skipWs input with
    | [] => none
    | c :: r =>
      if c = '"' then
        match psBody r with
        | none => none
        | some (k, r1) =>
          match skipWs r1 with
          | [] => none
          | c2 :: r2 =>
            if c2 = ':' then
              match parseValue fuel r2 with
              | none => none
              | some (v, r3) =>
                match skipWs r3 with
                | [] => none
                | c3 :: r4 =>
                  if c3 = ',' then
                    match parseMembers fuel r4 with
                    | some (.obj fs, r5) => some (.obj ((String.mk k, v) :: fs), r5)
                    | _ => none
                  else if c3 = rbr then some (.obj [(String.mk k, v)], r4)
                  else none
            else none
      else none

end

/-- Model of `JSON.parse`: parse one value and require only trailing
whitespace after it. -/
def parseJson (s : String) : Option JValue :=
  match parseValue (s.data.length + 1) s.data with
  | some (v, r) => if (skipWs r).isEmpty then some v else none
  | none => none

/-- Whether the remaining input does not begin with a decimal digit; the
digit-run boundary is the only token boundary number parsing depends on. -/
def headNotDigit : List Char → Bool
  | [] => true
  | c :: _ => !c.isDigit

/-- Characters a rendered JSON value can begin with: never whitespace and
never a closing delimiter or separator. -/
def goodHead (c : Char) : Bool :=
  !isWsChar c && !(c = ']') && !(c = rbr) && !(c = ',') && !(c = ':')

mutual

/-- Structural size of a JSON value; a lower bound for the parser fuel. -/
def sizeJ : JValue → Nat
  | .null => 1
  | .bool _ => 1
  | .num _ => 1
  | .str _ => 1
  | .arr xs => 1 + sizeL xs
  | .obj fs => 1 + sizeO fs

/-- Size of an array element list. -/
def sizeL : List JValue → Nat
  | [] => 1
  | x :: xs => 1 + sizeJ x + sizeL xs

/-- Size of an object member list. -/
def sizeO : List (String × JValue) → Nat
  | [] => 1
  | (_, v) :: fs => 1 + sizeJ v + sizeO fs

end

/-! ## The condition tree

The source distinguishes the four condition shapes by key sniffing
(`'not' in c`, `'allOf' in c`, `'count' in c`, `'field' in c`); the embedding
uses a closed sum whose constructors correspond to those shapes:
`simple f op v` is `{field: f, [op]: v}`, `nested k cs` is `{allOf: cs}` or
`{anyOf: cs}`, `count f wk wcs cop t` is
`{count: {field: f, where: {wk: wcs}}, [cop]: t}`, and `cnot c` is `{not: c}`.
The embedding assumes a simple condition's operator key does not collide with
the structural keys `field`, `not`, `count`, `allOf`, `anyOf` (the editor's
operator dropdown offers only the fixed `AVAILABLE_OPERATORS` list). -/

/-- Group combinator kind: `allOf` (AND) or `anyOf` (OR). -/
inductive GroupKind where
  | allOf : GroupKind
  | anyOf : GroupKind
deriving DecidableEq

/-- The comparator key of a count condition (`COUNT_OPERATORS`). -/
inductive CountOp where
  | greater : CountOp
  | less : CountOp
  | equals : CountOp
deriving DecidableEq

/-- One node of the recursive condition tree. -/
inductive Condition where
  | simple (field : String) (op : String) (value : JValue) : Condition
  | nested (kind : GroupKind) (children : List Condition) : Condition
  | count (cfield : String) (wkind : GroupKind) (wchildren : List Condition)
      (cop : CountOp) (threshold : JValue) : Condition
  | cnot (inner : Condition) : Condition

/-- The flipped group kind, as computed by
`groupCondition.allOf ? 'anyOf' : 'allOf'` in `handleToggleGroupType`. -/
def flipKind : GroupKind → GroupKind
  | .allOf => .anyOf
  | .anyOf => .allOf

/-- The fresh empty simple condition `{ field: '', equals: '' }` used by
`handleAddCondition` and by the remove-last-child guard. -/
def emptySimple : Condition := .simple "" "equals" (.str "")

/-- `useConditionGroup.handleAddCondition`: prepends a fresh empty simple
condition (`onUpdate([{ field: '', equals: '' }, ...conditions])`). -/
def handleAddCondition (conditions : List Condition) : List Condition :=
  emptySimple :: conditions

/-- `useConditionGroup.handleAddNestedGroup`: appends an empty `anyOf` group,
wrapped in `not` when the parent group is negated
(`onUpdate([...conditions, isNot ? { not: newGroup } : newGroup])`). -/
def handleAddNestedGroup (isNot : Bool) (conditions : List Condition) : List Condition :=
  conditions ++ [if isNot then .cnot (.nested .anyOf []) else .nested .anyOf []]

/-- `useConditionGroup.handleRemoveCondition`: when exactly one condition is
left the list is replaced by a fresh empty simple condition regardless of the
index; otherwise `conditions.filter((_, i) => i !== idx)`.  The index is an
`Int` so that negative out-of-range arguments are representable. -/
def handleRemoveCondition (idx : Int) (conditions : List Condition) : List Condition :=
  if conditions.length = 1 then [emptySimple]
  else conditions.enum.filterMap (fun p => if (p.1 : Int) = idx then none else some p.2)

/-- The type guard `isNestedCondition` from `ConditionGroup/types/index.ts`:
a group, or a `not` wrapping a group. -/
def isNestedCondition : Condition → Bool
  | .nested _ _ => true
  | .cnot (.nested _ _) => true
  | _ => false

/-- Observable result of a list-level edit handler: a new conditions list was
passed to `onUpdate`, nothing happened, or a runtime `TypeError` was raised. -/
inductive EditOutcome where
  | updated (conditions : List Condition) : EditOutcome
  | noop : EditOutcome
  | thrown : EditOutcome

/-- The node transformation performed by `handleToggleGroupType` on the
addressed child: flip the group kind, keeping the children and re-applying
an outer `not` wrapper when one was present. -/
def toggleGroupCond : Condition → Condition
  | .nested k cs => .nested (flipKind k) cs
  | .cnot (.nested k cs) => .cnot (.nested (flipKind k) cs)
  | c => c

/-- `useConditionGroup.handleToggleGroupType(idx)`: reading `conditions[idx]`
out of range yields `undefined`, and `'not' in undefined` raises a
`TypeError`; an in-range target failing the `isNestedCondition` guard makes
the handler return without calling `onUpdate`. -/
def handleToggleGroupType (idx : Nat) (conditions : List Condition) : EditOutcome :=
  match conditions[idx]? with
  | none => .thrown
  | some c =>
    if isNestedCondition c then .updated (conditions.set idx (toggleGroupCond c))
    else .noop

/-- The root `if` clause of the policy rule: `{ [kind]: children }`,
optionally wrapped as `{ not: { [kind]: children } }`.  Mirrors
`PolicyRuleIf` as read by `isRootNot`/`getCurrentGroupType`
/`getCurrentConditions` in `usePolicyEditorState`. -/
structure RootGroup where
  isNot : Bool
  kind : GroupKind
  children : List Condition

/-- `usePolicyEditorState.handleToggleGroupType`: rebuilds the root `if`
with the flipped kind, preserving the conditions and the `not` wrapper. -/
def rootToggleGroupType (g : RootGroup) : RootGroup :=
  { g with kind := flipKind g.kind }

/-- `usePolicyEditorState.handleToggleNot`: wraps or unwraps the root `if`
in `not`, preserving kind and conditions. -/
def rootToggleNot (g : RootGroup) : RootGroup :=
  { g with isNot := !g.isNot }

/-- Whether a condition is `not`-wrapped (`'not' in condition`). -/
def isNotWrapped : Condition → Bool
  | .cnot _ => true
  | _ => false

/-- `useCondition.handleNotToggle(checked)` from the condition editor hook:
extracts the unwrapped condition and wraps it iff the checkbox is checked. -/
def handleNotToggle (checked : Bool) (condition : Condition) : Condition :=
  let simpleCondition := match condition with
    | .cnot inner => inner
    | c => c
  if checked then .cnot simpleCondition else simpleCondition

/-- One click of the NOT checkbox: the `NotToggle` component reports
`e.target.checked`, which is the negation of the current `isNot` state. -/
def toggleSimpleNot (condition : Condition) : Condition :=
  handleNotToggle (!isNotWrapped condition) condition

/-- `useCountCondition.handleToggleCountNot`: unwraps a negated count
condition to `{count, [operator]: value}`, or wraps an unwrapped one in
`not`; the operator key is the unique key besides `count`. -/
def handleToggleCountNot : Condition → Condition
  | .cnot (.count f wk wcs cop t) => .count f wk wcs cop t
  | .count f wk wcs cop t => .cnot (.count f wk wcs cop t)
  | c => c

/-- `useCondition.handleOperatorChange`: moves the stored value under the new
operator key (`{ ...rest, field, [newOperator]: oldValue }`), preserving an
outer `not` wrapper. -/
def handleOperatorChange (newOp : String) (condition : Condition) : Condition :=
  match condition with
  | .simple f _ v => .simple f newOp v
  | .cnot (.simple f _ v) => .cnot (.simple f newOp v)
  | c => c

/-- The value-processing step of `useCondition.handleValueChange`: under
`in`/`notIn` the text is stored as a parsed array when `JSON.parse` yields
an array, and as the raw string otherwise (invalid JSON or non-array JSON);
under any other operator the raw string is stored. -/
def processValueInput (op : String) (newValue : String) : JValue :=
  if op = "in" || op = "notIn" then
    match parseJson newValue with
    | some (.arr xs) => .arr xs
    | _ => .str newValue
  else .str newValue

/-- `useCondition.handleValueChange`: stores the processed value under the
current operator key, preserving an outer `not` wrapper. -/
def handleValueChange (newValue : String) (condition : Condition) : Condition :=
  match condition with
  | .simple f op _ => .simple f op (processValueInput op newValue)
  | .cnot (.simple f op _) => .cnot (.simple f op (processValueInput op newValue))
  | c => c

/-- A nested group with an optional `not` wrapper, the two shapes the
`isNestedCondition` guard accepts. -/
def mkNestedChild (w : Bool) (k : GroupKind) (cs : List Condition) : Condition :=
  if w then .cnot (.nested k cs) else .nested k cs

/-- A simple condition with an optional `not` wrapper, the two shapes
`useCondition` accepts (`SimpleCondition | NotCondition`). -/
def mkSimpleCond (w : Bool) (f op : String) (v : JValue) : Condition :=
  if w then .cnot (.simple f op v) else .simple f op v

/-- Checker for the claimed invariant that `in`/`notIn` operators always
hold an array value. -/
def inValueIsArray : Condition → Bool
  | .simple _ op v =>
      if op = "in" || op = "notIn" then
        match v with
        | .arr _ => true
        | _ => false
      else true
  | .cnot (.simple _ op v) =>
      if op = "in" || op = "notIn" then
        match v with
        | .arr _ => true
        | _ => false
      else true
  | _ => true

/-! ## Editor state: effect parameter and manual JSON edits -/

/-- The in-memory state of `usePolicyEditorState` that the studied handlers
read and write: the `selectedEffect` string and the whole policy document.
The policy is a bare `JValue` because `handleEditorChange` installs any
successfully parsed JSON as the new policy without validation. -/
structure EditorState where
  selectedEffect : String
  policy : JValue

/-- First JS object property with the given key. -/
def getKey : JValue → String → Option JValue
  | .obj fs, k => (fs.find? (fun f => f.1 = k)).map (fun f => f.2)
  | _, _ => none

/-- Chained property lookup. -/
def getPath : JValue → List String → Option JValue
  | j, [] => some j
  | j, k :: ks =>
    match getKey j k with
    | some j' => getPath j' ks
    | none => none

/-- Read a JSON array of strings. -/
def asStringList : JValue → Option (List String)
  | .arr xs => xs.mapM (fun x => match x with | .str s => some s | _ => none)
  | _ => none

/-- Replace-or-append of one key, keeping insertion order: the semantics of
`{ ...obj, k: v }` on a JS object. -/
def setKeyList : List (String × JValue) → String → JValue → List (String × JValue)
  | [], k, v => [(k, v)]
  | (k', v') :: fs, k, v =>
    if k' = k then (k', v) :: fs else (k', v') :: setKeyList fs k v

/-- `{ ...prev, k: v }`: on an object, replace or append the key; on a
missing / undefined base ( `{...undefined}` is `{}` in JS) start fresh. -/
def setObjKey (j : JValue) (k : String) (v : JValue) : JValue :=
  match j with
  | .obj fs => .obj (setKeyList fs k v)
  | _ => .obj [(k, v)]

/-- Property read defaulting to an empty object, the way an absent
intermediate object behaves under a subsequent spread. -/
def getKeyD (j : JValue) (k : String) : JValue := (getKey j k).getD (.obj [])

/-- Whether a value is a JSON object. -/
def isObj : JValue → Bool
  | .obj _ => true
  | _ => false

/-- The states on which `handleEffectChange`'s property accesses and spreads
behave exactly as the object-update model: the policy, its `properties` and
`parameters` and the `effect` entry are all objects.  Elsewhere the real
handler would raise a `TypeError` or spread a primitive. -/
def effectSpine (p : JValue) : Bool :=
  isObj p && isObj (getKeyD p "properties")
    && isObj (getKeyD (getKeyD p "properties") "parameters")
    && isObj (getKeyD (getKeyD (getKeyD p "properties") "parameters") "effect")

/-- ASCII lower-casing of a string, as `value.toLowerCase()` behaves on the
effect names the editor uses. -/
def toLowerStr (s : String) : String := String.mk (s.data.map Char.toLower)

/-- `value.charAt(0).toUpperCase() + value.slice(1).toLowerCase()`. -/
def capFirst (value : String) : String :=
  match value.data with
  | [] => ""
  | c :: cs => String.mk (c.toUpper :: cs.map Char.toLower)

/-- JSON array of strings. -/
def strList (l : List String) : JValue := .arr (l.map .str)

/-- The literal `"[parameters('effect')]"`. -/
def effectRef : String := "[parameters(\x27effect\x27)]"

/-- The `then` block installed by `handleEffectChange` for the modify
effect. -/
def modifyThen : JValue :=
  .obj [("effect", .str effectRef),
    ("details", .obj [("roleDefinitionIds", .arr []),
      ("operations", .arr [.obj [("operation", .str "add"),
        ("field", .str ""), ("value", .str "")]])])]

/-- The `then` block installed by `handleEffectChange` for non-modify
effects. -/
def auditThen : JValue := .obj [("effect", .str effectRef)]

/-- `usePolicyEditorState.handleEffectChange`: stores the raw `value` as the
selected effect, rewrites `parameters.effect.allowedValues` and
`defaultValue`, and replaces `policyRule.then`. -/
def handleEffectChange (value : String) (s : EditorState) : EditorState :=
  let isModify := toLowerStr value = "modify"
  let defaultValue := capFirst value
  let allowed : List String :=
    if isModify then ["Modify", "Disabled"] else ["Audit", "Deny", "Disabled"]
  let props := getKeyD s.policy "properties"
  let params := getKeyD props "parameters"
  let eff := getKeyD params "effect"
  let eff' := setObjKey (setObjKey eff "allowedValues" (strList allowed))
    "defaultValue" (.str defaultValue)
  let params' := setObjKey params "effect" eff'
  let rule := getKeyD props "policyRule"
  let rule' := setObjKey rule "then" (if isModify then modifyThen else auditThen)
  let props' := setObjKey (setObjKey props "parameters" params') "policyRule" rule'
  { selectedEffect := value, policy := setObjKey s.policy "properties" props' }

/-- `usePolicyEditorState.handleEditorChange`: an undefined or empty editor
value returns immediately; otherwise the text is parsed and, on success, the
parsed document replaces the policy wholesale; on failure nothing changes. -/
def handleEditorChange (value : Option String) (s : EditorState) : EditorState :=
  match value with
  | none => s
  | some t =>
    if t = "" then s
    else
      match parseJson t with
      | some j => { s with policy := j }
      | none => s

/-- The `initialPolicyTemplate` constant from `constants/policy.ts`. -/
def initialPolicyTemplate : JValue :=
  .obj [("properties", .obj [
    ("displayName", .str ""),
    ("description", .str ""),
    ("policyType", .str "Custom"),
    ("mode", .str "All"),
    ("metadata", .obj [("version", .str "1.0.0"), ("category", .str ""),
      ("preview", .bool false)]),
    ("version", .str "1.0.0"),
    ("parameters", .obj [("effect", .obj [
      ("type", .str "String"),
      ("metadata", .obj [("displayName", .str "Effect"),
        ("description", .str "The effect determines what happens when the policy rule is evaluated to match")]),
      ("allowedValues", strList ["Audit", "Deny", "Disabled"]),
      ("defaultValue", .str "Audit")])]),
    ("policyRule", .obj [("if", .obj [("allOf", .arr [])]),
      ("then", .obj [("effect", .str effectRef)])])])]

/-- The editor state at session start: `useState('audit')` for the selected
effect and the initial template for the policy. -/
def initialEditorState : EditorState :=
  { selectedEffect := "audit", policy := initialPolicyTemplate }

/-- `parameters.effect.allowedValues` of a policy document, as a string
list. -/
def effectAllowedValues (p : JValue) : Option (List String) :=
  (getPath p ["properties", "parameters", "effect", "allowedValues"]).bind asStringList

/-- The allowed-values list the specification requires for a selected
effect; the modify comparison is case-insensitive, as in
`handleEffectChange`. -/
def expectedAllowed (eff : String) : List String :=
  if toLowerStr eff = "modify" then ["Modify", "Disabled"]
  else ["Audit", "Deny", "Disabled"]

/-- The claimed invariant: the stored allowed values match the currently
selected effect. -/
def effectInvariant (s : EditorState) : Prop :=
  effectAllowedValues s.policy = some (expectedAllowed s.selectedEffect)

/-- A valid JSON text that installs an effect parameter whose allowed values
match neither effect family. -/
def c8BadText : String :=
  "\x7b\"properties\":\x7b\"parameters\":\x7b\"effect\":\x7b\"allowedValues\":[\"Deny\"]\x7d\x7d\x7d\x7d"

/-! ## Theorems about the condition-tree operations -/

/-- C1: applying the negation toggle twice returns a condition structurally
equal to the original, for simple leaves (`useCondition.handleNotToggle`
driven by the NOT checkbox), root groups
(`usePolicyEditorState.handleToggleNot`) and count conditions
(`useCountCondition.handleToggleCountNot`); a single toggle wraps an
unwrapped node in `not` and unwraps a `not`-wrapped node back to exactly
its inner value. -/
theorem toggleNegation_involution :
    (∀ (f op : String) (v : JValue),
      toggleSimpleNot (toggleSimpleNot (.simple f op v)) = .simple f op v
      ∧ toggleSimpleNot (.simple f op v) = .cnot (.simple f op v)
      ∧ toggleSimpleNot (.cnot (.simple f op v)) = .simple f op v)
    ∧ (∀ g : RootGroup, rootToggleNot (rootToggleNot g) = g
      ∧ (rootToggleNot g).kind = g.kind ∧ (rootToggleNot g).children = g.children)
    ∧ (∀ (f : String) (wk : GroupKind) (wcs : List Condition) (cop : CountOp) (t : JValue),
      handleToggleCountNot (handleToggleCountNot (.count f wk wcs cop t)) = .count f wk wcs cop t
      ∧ handleToggleCountNot (.count f wk wcs cop t) = .cnot (.count f wk wcs cop t)
      ∧ handleToggleCountNot (.cnot (.count f wk wcs cop t)) = .count f wk wcs cop t) := by
  refine ⟨fun f op v => ⟨rfl, rfl, rfl⟩, fun g => ⟨?_, rfl, rfl⟩,
    fun f wk wcs cop t => ⟨rfl, rfl, rfl⟩⟩
  cases g
  simp [rootToggleNot]

/-- C2: removing the sole child of a one-element group yields a one-element
group containing the fresh empty simple condition
`{field: "", operator: equals, value: ""}`, never an empty group. -/
theorem removeChild_singleton_guard :
    ∀ cs : List Condition, cs.length = 1 →
      handleRemoveCondition 0 cs = [emptySimple]
      ∧ (handleRemoveCondition 0 cs).length = 1
      ∧ emptySimple = .simple "" "equals" (.str "") := by
  intro cs h
  refine ⟨?_, ?_, rfl⟩ <;> simp [handleRemoveCondition, h]

/-- Witness for `removeChild_singleton_guard` at a concrete one-element
group. -/
theorem removeChild_singleton_guard_witness :
    handleRemoveCondition 0 [Condition.nested .allOf []] = [emptySimple] :=
  (removeChild_singleton_guard [Condition.nested .allOf []] rfl).1

/-- C3: `handleAddCondition` inserts the fresh empty simple condition at the
front and `handleAddNestedGroup` appends the new (possibly `not`-wrapped)
empty `anyOf` group at the end, preserving all existing children and their
relative order. -/
theorem addSimple_front_addNestedGroup_back :
    ∀ (cs : List Condition) (isNot : Bool),
      handleAddCondition cs = emptySimple :: cs
      ∧ (handleAddCondition cs)[0]? = some emptySimple
      ∧ (∀ i : Nat, (handleAddCondition cs)[i + 1]? = cs[i]?)
      ∧ handleAddNestedGroup isNot cs
          = cs ++ [if isNot then .cnot (.nested .anyOf []) else .nested .anyOf []]
      ∧ (∀ i : Nat, i < cs.length → (handleAddNestedGroup isNot cs)[i]? = cs[i]?)
      ∧ (handleAddNestedGroup isNot cs)[cs.length]?
          = some (if isNot then .cnot (.nested .anyOf []) else .nested .anyOf []) := by
  intro cs isNot
  refine ⟨rfl, by simp [handleAddCondition], fun i => by simp [handleAddCondition],
    rfl, fun i hi => ?_, ?_⟩
  · rw [handleAddNestedGroup, List.getElem?_append_left hi]
  · simp [handleAddNestedGroup]

/-- C4: toggling the kind of an addressed nested child (with or without an
outer `not` wrapper) flips `allOf` to `anyOf` and back, leaves the
children and the wrapper untouched, leaves all sibling entries untouched,
and a second toggle restores the original list exactly; the root-level
toggle `usePolicyEditorState.handleToggleGroupType` likewise is its own
inverse and preserves children and negation. -/
theorem toggleGroupKind_pair :
    ∀ (conds : List Condition) (idx : Nat) (k : GroupKind) (cs : List Condition) (w : Bool),
      conds[idx]? = some (mkNestedChild w k cs) →
        flipKind .allOf = .anyOf ∧ flipKind .anyOf = .allOf
        ∧ handleToggleGroupType idx conds
            = .updated (conds.set idx (mkNestedChild w (flipKind k) cs))
        ∧ handleToggleGroupType idx (conds.set idx (mkNestedChild w (flipKind k) cs))
            = .updated conds
        ∧ (∀ j : Nat, j ≠ idx →
            (conds.set idx (mkNestedChild w (flipKind k) cs))[j]? = conds[j]?)
        ∧ (∀ g : RootGroup, rootToggleGroupType (rootToggleGroupType g) = g
            ∧ (rootToggleGroupType g).children = g.children
            ∧ (rootToggleGroupType g).isNot = g.isNot) := by
  intro conds idx k cs w h
  have hidx : idx < conds.length := by
    have := List.getElem?_eq_some_iff.mp h
    exact this.1
  have htoggle : toggleGroupCond (mkNestedChild w k cs) = mkNestedChild w (flipKind k) cs := by
    cases w <;> rfl
  have hguard : isNestedCondition (mkNestedChild w k cs) = true := by
    cases w <;> rfl
  have hguard' : isNestedCondition (mkNestedChild w (flipKind k) cs) = true := by
    cases w <;> rfl
  have hflip : flipKind (flipKind k) = k := by cases k <;> rfl
  have hset : (conds.set idx (mkNestedChild w (flipKind k) cs))[idx]?
      = some (mkNestedChild w (flipKind k) cs) := by
    rw [List.getElem?_set_self (by simpa using hidx)]
  refine ⟨rfl, rfl, ?_, ?_, ?_, fun g => ⟨?_, rfl, rfl⟩⟩
  · simp [handleToggleGroupType, h, hguard, htoggle]
  · have htoggle' : toggleGroupCond (mkNestedChild w (flipKind k) cs)
        = mkNestedChild w k cs := by
      cases w <;> simp [toggleGroupCond, mkNestedChild, hflip]
    have hrestore : (conds.set idx (mkNestedChild w (flipKind k) cs)).set idx
        (mkNestedChild w k cs) = conds := by
      rw [List.set_set]
      apply List.ext_getElem?
      intro n
      by_cases hn : n = idx
      · subst hn
        rw [List.getElem?_set_self (by simpa using hidx), h]
      · rw [List.getElem?_set_ne (by omega)]
    simp [handleToggleGroupType, hset, hguard', htoggle', hrestore]
  · intro j hj
    rw [List.getElem?_set_ne (by omega)]
  · cases g with
    | mk b k' ch => cases k' <;> simp [rootToggleGroupType, flipKind]

/-- Witness for `toggleGroupKind_pair` at a concrete singleton group list. -/
theorem toggleGroupKind_pair_witness :
    handleToggleGroupType 0 [Condition.nested .allOf []]
      = .updated [Condition.nested .anyOf []] := by
  have h := toggleGroupKind_pair [Condition.nested .allOf []] 0 .allOf [] false rfl
  simpa [mkNestedChild, flipKind] using h.2.2.1

/-- C5 counterexample: `handleToggleGroupType` aimed at an in-range child
that is not a nested group does not throw; it silently does nothing. -/
theorem toggleGroupKind_simple_target_silent :
    handleToggleGroupType 0 [emptySimple] = .noop
    ∧ handleToggleGroupType 0 [emptySimple] ≠ .thrown := by
  refine ⟨rfl, fun h => ?_⟩
  rw [show handleToggleGroupType 0 [emptySimple] = .noop from rfl] at h
  exact EditOutcome.noConfusion h

/-- C5 amended: when the addressed child exists but fails the
`isNestedCondition` guard, `handleToggleGroupType` silently returns without
calling `onUpdate` — the tree is left unmodified, but by a silent no-op
rather than by throwing. -/
theorem toggleGroupKind_wrong_shape_noop :
    ∀ (conds : List Condition) (idx : Nat) (c : Condition),
      conds[idx]? = some c → isNestedCondition c = false →
        handleToggleGroupType idx conds = .noop := by
  intro conds idx c h hc
  simp [handleToggleGroupType, h, hc]

/-- Witness for `toggleGroupKind_wrong_shape_noop` on a concrete count
condition target. -/
theorem toggleGroupKind_wrong_shape_noop_witness :
    handleToggleGroupType 0 [Condition.count "f" .anyOf [] .greater (.num 0)] = .noop :=
  toggleGroupKind_wrong_shape_noop [Condition.count "f" .anyOf [] .greater (.num 0)]
    0 (Condition.count "f" .anyOf [] .greater (.num 0)) rfl rfl

/-- C9 counterexample: typing text that is not a JSON array while the
operator is `in` stores the raw string, so a non-array value sits under an
`in` key. -/
theorem inValue_string_stored :
    handleValueChange "hello" (.simple "" "in" (.str ""))
      = .simple "" "in" (.str "hello")
    ∧ inValueIsArray (handleValueChange "hello" (.simple "" "in" (.str ""))) = false := by
  exact ⟨rfl, rfl⟩

/-- C9 amended: under `in`/`notIn` the stored value is the parsed array when
the text parses as a JSON array (whose elements need not be strings), and
the raw input string otherwise — so a plain string, not an array, can be
stored under an `in`/`notIn` key. -/
theorem inValue_stores_array_or_raw_string :
    ∀ (w : Bool) (f op : String) (v : JValue) (t : String),
      op = "in" ∨ op = "notIn" →
        (∀ xs, parseJson t = some (.arr xs) →
          handleValueChange t (mkSimpleCond w f op v) = mkSimpleCond w f op (.arr xs))
        ∧ ((∀ xs, parseJson t ≠ some (.arr xs)) →
          handleValueChange t (mkSimpleCond w f op v) = mkSimpleCond w f op (.str t)) := by
  intro w f op v t hop
  have hin : (op = "in" || op = "notIn") = true := by
    rcases hop with h | h <;> simp [h]
  constructor
  · intro xs hxs
    cases w <;> simp [mkSimpleCond, handleValueChange, processValueInput, hin, hxs]
  · intro hno
    have hval : processValueInput op t = .str t := by
      rw [processValueInput, if_pos (by simp_all)]
      rcases hp : parseJson t with _ | j
      · rfl
      · cases j with
        | arr xs => exact absurd hp (hno xs)
        | _ => rfl
    cases w <;> simp [mkSimpleCond, handleValueChange, hval]

/-- Witness for `inValue_stores_array_or_raw_string`: a parsed JSON array is
stored as an array. -/
theorem inValue_stores_array_or_raw_string_witness :
    handleValueChange "[\"x\"]" (mkSimpleCond false "" "in" (.str ""))
      = mkSimpleCond false "" "in" (.arr [.str "x"]) :=
  (inValue_stores_array_or_raw_string false "" "in" (.str "") "[\"x\"]"
    (Or.inl rfl)).1 [.str "x"] rfl

/-- C10: with exactly one child present, `handleRemoveCondition` never
inspects its index argument: any index, including negative and too-large
ones, produces the same singleton list holding the fresh empty simple
condition. -/
theorem removeChild_singleton_ignores_index :
    ∀ (idx : Int) (cs : List Condition), cs.length = 1 →
      handleRemoveCondition idx cs = [emptySimple] := by
  intro idx cs h
  simp [handleRemoveCondition, h]

/-- Witness for `removeChild_singleton_ignores_index` at a negative
out-of-range index. -/
theorem removeChild_singleton_ignores_index_witness :
    handleRemoveCondition (-5) [Condition.nested .anyOf []] = [emptySimple] :=
  removeChild_singleton_ignores_index (-5) [Condition.nested .anyOf []] rfl

/-! ## Round trip of the serializer and the parser -/

theorem skipWs_not_ws {c : Char} (h : isWsChar c = false) (l : List Char) :
    skipWs (c :: l) = c :: l := by
  simp [skipWs, h]

theorem skipWs_all_append :
    ∀ pre : List Char, (∀ c ∈ pre, isWsChar c = true) →
      ∀ l, skipWs (pre ++ l) = skipWs l := by
  intro pre
  induction pre with
  | nil => intro _ l; rfl
  | cons c cs ih =>
    intro h l
    have hc : isWsChar c = true := h c (List.mem_cons_self c cs)
    simp only [List.cons_append, skipWs, hc, if_true]
    exact ih (fun c' hc' => h c' (List.mem_cons_of_mem c hc')) l

theorem ws2_all_ws (d : Nat) : ∀ c ∈ ws2 d, isWsChar c = true := by
  intro c hc
  have : c = ' ' := List.eq_of_mem_replicate hc
  subst this
  decide

theorem skipWs_nl_ws2 (d : Nat) (l : List Char) :
    skipWs ('\n' :: (ws2 d ++ l)) = skipWs l := by
  have h1 : isWsChar '\n' = true := by decide
  simp only [skipWs, h1, if_true]
  exact skipWs_all_append (ws2 d) (ws2_all_ws d) l

theorem hexVal_hexDig {k : Nat} (hk : k < 16) : hexVal (hexDig k) = some k := by
  interval_cases k <;> decide

theorem psBody_escStr (cs : List Char) (rest : List Char) :
    psBody (escStr cs ++ '"' :: rest) = some (cs, rest) := by
  induction cs with
  | nil => rfl
  | cons c cs ih =>
    show psBody ((escChar c ++ escStr cs) ++ '"' :: rest) = _
    rw [List.append_assoc]
    rw [escChar]
    by_cases h1 : c = '"'
    · subst h1; simp [psBody, escDecode, ih]
    rw [if_neg h1]
    by_cases h2 : c = '\\'
    · subst h2; simp [psBody, escDecode, ih]
    rw [if_neg h2]
    by_cases h3 : c = '\x08'
    · subst h3; simp [psBody, escDecode, ih]
    rw [if_neg h3]
    by_cases h4 : c = '\x0c'
    · subst h4; simp [psBody, escDecode, ih]
    rw [if_neg h4]
    by_cases h5 : c = '\n'
    · subst h5; simp [psBody, escDecode, ih]
    rw [if_neg h5]
    by_cases h6 : c = '\r'
    · subst h6; simp [psBody, escDecode, ih]
    rw [if_neg h6]
    by_cases h7 : c = '\t'
    · subst h7; simp [psBody, escDecode, ih]
    rw [if_neg h7]
    by_cases h8 : c.toNat < 32
    · rw [if_pos h8]
      have hhi : c.toNat / 16 < 16 := by omega
      have hlo : c.toNat % 16 < 16 := by omega
      have e1 : hexVal '0' = some 0 := by decide
      simp only [List.cons_append, psBody, List.nil_append]
      norm_num [hexVal_hexDig hhi, hexVal_hexDig hlo, e1]
      have hval : (c.toNat / 16) * 16 + c.toNat % 16 = c.toNat := by omega
      rw [hval, Char.ofNat_toNat, ih]
      simp
    · rw [if_neg h8]
      simp [psBody, h1, h2, ih]

theorem digitCh_isDigit {k : Nat} (hk : k < 10) : (digitCh k).isDigit = true := by
  interval_cases k <;> decide

theorem digitVal_digitCh {k : Nat} (hk : k < 10) : digitVal (digitCh k) = k := by
  interval_cases k <;> decide

theorem natDigs_ne_nil_all_digits (n : Nat) :
    natDigs n ≠ [] ∧ ∀ c ∈ natDigs n, c.isDigit = true := by
  induction n using Nat.strong_induction_on with
  | _ n ih =>
    rw [natDigs]
    by_cases h : n < 10
    · rw [dif_pos h]
      refine ⟨by simp, ?_⟩
      intro c hc
      rw [List.mem_singleton] at hc
      subst hc
      exact digitCh_isDigit h
    · rw [dif_neg h]
      have hrec := ih (n / 10) (Nat.div_lt_self (by omega) (by omega))
      refine ⟨by simp [hrec.1], ?_⟩
      intro c hc
      rw [List.mem_append] at hc
      rcases hc with hc | hc
      · exact hrec.2 c hc
      · rw [List.mem_singleton] at hc
        subst hc
        exact digitCh_isDigit (by omega)

theorem takeDigits_all_digits :
    ∀ ds : List Char, (∀ c ∈ ds, c.isDigit = true) →
      ∀ acc rest, headNotDigit rest = true →
        takeDigits acc (ds ++ rest)
          = (ds.foldl (fun a c => a * 10 + digitVal c) acc, rest) := by
  intro ds
  induction ds with
  | nil =>
    intro _ acc rest hrest
    cases rest with
    | nil => rfl
    | cons r rs =>
      have hr : r.isDigit = false := by simpa [headNotDigit] using hrest
      simp [takeDigits, hr]
  | cons d ds ih =>
    intro h acc rest hrest
    have hd : d.isDigit = true := h d (List.mem_cons_self d ds)
    simp only [List.cons_append, takeDigits, hd, if_true, List.foldl_cons]
    exact ih (fun c hc => h c (List.mem_cons_of_mem d hc)) _ rest hrest

theorem natDigs_foldl (n : Nat) :
    ∀ acc, (natDigs n).foldl (fun a c => a * 10 + digitVal c) acc
      = acc * 10 ^ (natDigs n).length + n := by
  induction n using Nat.strong_induction_on with
  | _ n ih =>
    intro acc
    rw [natDigs]
    by_cases h : n < 10
    · rw [dif_pos h]
      simp [digitVal_digitCh h]
    · rw [dif_neg h]
      rw [List.foldl_append, ih (n / 10) (Nat.div_lt_self (by omega) (by omega)) acc]
      simp only [List.foldl_cons, List.foldl_nil, List.length_append,
        List.length_singleton, pow_succ]
      rw [digitVal_digitCh (show n % 10 < 10 by omega), ← mul_assoc]
      generalize acc * 10 ^ (natDigs (n / 10)).length = m
      omega

theorem takeDigits_natDigs (n : Nat) (rest : List Char) (h : headNotDigit rest = true) :
    takeDigits 0 (natDigs n ++ rest) = (n, rest) := by
  rw [takeDigits_all_digits (natDigs n) (natDigs_ne_nil_all_digits n).2 0 rest h,
    natDigs_foldl n 0]
  simp

theorem parseNumber_intChars (i : Int) (rest : List Char) (h : headNotDigit rest = true) :
    parseNumber (intChars i ++ rest) = some (.num i, rest) := by
  cases i with
  | ofNat n =>
    obtain ⟨hne, hdigs⟩ := natDigs_ne_nil_all_digits n
    obtain ⟨c, t, hct⟩ : ∃ c t, natDigs n = c :: t := by
      cases hcase : natDigs n with
      | nil => exact absurd hcase hne
      | cons c t => exact ⟨c, t, rfl⟩
    have hc : c.isDigit = true := hdigs c (by rw [hct]; exact List.mem_cons_self c t)
    have hcm : ¬c = '-' := by
      intro hc'
      subst hc'
      exact absurd hc (by decide)
    have htake := takeDigits_natDigs n rest h
    show parseNumber (natDigs n ++ rest) = _
    rw [hct] at htake ⊢
    simp only [List.cons_append] at htake ⊢
    simp [parseNumber, hcm, hc, htake]
  | negSucc m =>
    obtain ⟨hne, hdigs⟩ := natDigs_ne_nil_all_digits (m + 1)
    obtain ⟨c, t, hct⟩ : ∃ c t, natDigs (m + 1) = c :: t := by
      cases hcase : natDigs (m + 1) with
      | nil => exact absurd hcase hne
      | cons c t => exact ⟨c, t, rfl⟩
    have hc : c.isDigit = true := hdigs c (by rw [hct]; exact List.mem_cons_self c t)
    have htake := takeDigits_natDigs (m + 1) rest h
    show parseNumber ('-' :: (natDigs (m + 1) ++ rest)) = _
    rw [hct] at htake ⊢
    simp only [List.cons_append] at htake ⊢
    simp [parseNumber, hc, htake, Int.negSucc_eq]

theorem not_eq_of_isDigit {c x : Char} (h : c.isDigit = true) (hx : x.isDigit = false) :
    ¬c = x :=
  fun he => absurd (he ▸ h) (by simp [hx])

theorem isDigit_isWs {c : Char} (h : c.isDigit = true) : isWsChar c = false := by
  have h1 := not_eq_of_isDigit h (show (' ').isDigit = false by decide)
  have h2 := not_eq_of_isDigit h (show ('\n').isDigit = false by decide)
  have h3 := not_eq_of_isDigit h (show ('\t').isDigit = false by decide)
  have h4 := not_eq_of_isDigit h (show ('\r').isDigit = false by decide)
  simp [isWsChar, h1, h2, h3, h4]

theorem isDigit_goodHead {c : Char} (h : c.isDigit = true) : goodHead c = true := by
  have h1 := not_eq_of_isDigit h (show (']').isDigit = false by decide)
  have h2 := not_eq_of_isDigit h (show rbr.isDigit = false by decide)
  have h3 := not_eq_of_isDigit h (show (',').isDigit = false by decide)
  have h4 := not_eq_of_isDigit h (show (':').isDigit = false by decide)
  simp [goodHead, isDigit_isWs h, h1, h2, h3, h4]

theorem goodHead_spec {c : Char} (h : goodHead c = true) :
    isWsChar c = false ∧ ¬c = ']' ∧ ¬c = rbr ∧ ¬c = ',' ∧ ¬c = ':' := by
  simp only [goodHead, Bool.and_eq_true, Bool.not_eq_true', decide_eq_false_iff_not] at h
  exact ⟨h.1.1.1.1, h.1.1.1.2, h.1.1.2, h.1.2, h.2⟩

theorem render_head (d : Nat) (v : JValue) :
    ∃ c t, render d v = c :: t ∧ goodHead c = true := by
  cases v with
  | null => exact ⟨'n', _, rfl, by decide⟩
  | bool b => cases b with
    | false => exact ⟨'f', _, rfl, by decide⟩
    | true => exact ⟨'t', _, rfl, by decide⟩
  | num i =>
    cases i with
    | ofNat m =>
      obtain ⟨hne, hdigs⟩ := natDigs_ne_nil_all_digits m
      obtain ⟨c, t, hct⟩ : ∃ c t, natDigs m = c :: t := by
        cases hcase : natDigs m with
        | nil => exact absurd hcase hne
        | cons c t => exact ⟨c, t, rfl⟩
      have hc : c.isDigit = true := hdigs c (by rw [hct]; exact List.mem_cons_self c t)
      exact ⟨c, t, by simpa [render, intChars] using hct, isDigit_goodHead hc⟩
    | negSucc m => exact ⟨'-', _, rfl, by decide⟩
  | str s => exact ⟨'"', _, rfl, by decide⟩
  | arr xs =>
    cases xs with
    | nil => exact ⟨'[', _, rfl, by decide⟩
    | cons x xs => exact ⟨'[', _, rfl, by decide⟩
  | obj fs =>
    cases fs with
    | nil => exact ⟨lbr, _, rfl, by decide⟩
    | cons f fs => exact ⟨lbr, _, rfl, by decide⟩

theorem parseValue_ws (fuel : Nat) (pre l : List Char)
    (h : ∀ c ∈ pre, isWsChar c = true) :
    parseValue (fuel + 1) (pre ++ l) = parseValue (fuel + 1) l := by
  rw [parseValue, parseValue, skipWs_all_append pre h l]

theorem sizeJ_pos (v : JValue) : 1 ≤ sizeJ v := by
  cases v <;> simp [sizeJ]

theorem sizeL_pos (xs : List JValue) : 1 ≤ sizeL xs := by
  cases xs with
  | nil => simp [sizeL]
  | cons x xs => simp [sizeL]; omega

theorem sizeO_pos (fs : List (String × JValue)) : 1 ≤ sizeO fs := by
  cases fs with
  | nil => simp [sizeO]
  | cons f fs => cases f; simp [sizeO]; omega

theorem parseValue_dispatch_number (fuel : Nat) (c : Char) (l : List Char)
    (h1 : ¬c = 'n') (h2 : ¬c = 't') (h3 : ¬c = 'f') (h4 : ¬c = '"')
    (h5 : ¬c = '[') (h6 : ¬c = lbr) (hws : isWsChar c = false) :
    parseValue (fuel + 1) (c :: l) = parseNumber (c :: l) := by
  rw [parseValue, skipWs_not_ws hws]
  simp only [if_neg h1, if_neg h2, if_neg h3, if_neg h4, if_neg h5, if_neg h6]

theorem parseValue_number (fuel : Nat) (i : Int) (rest : List Char)
    (hrest : headNotDigit rest = true) :
    parseValue (fuel + 1) (intChars i ++ rest) = some (.num i, rest) := by
  obtain ⟨c, t, hct, hd⟩ : ∃ c t, intChars i = c :: t ∧ (c.isDigit = true ∨ c = '-') := by
    cases i with
    | ofNat m =>
      obtain ⟨hne, hdigs⟩ := natDigs_ne_nil_all_digits m
      cases hcase : natDigs m with
      | nil => exact absurd hcase hne
      | cons c t =>
        exact ⟨c, t, by simp [intChars, hcase],
          Or.inl (hdigs c (by rw [hcase]; exact List.mem_cons_self c t))⟩
    | negSucc m => exact ⟨'-', _, rfl, Or.inr rfl⟩
  have hne : ¬c = 'n' ∧ ¬c = 't' ∧ ¬c = 'f' ∧ ¬c = '"' ∧ ¬c = '[' ∧ ¬c = lbr
      ∧ isWsChar c = false := by
    rcases hd with hdig | hminus
    · exact ⟨not_eq_of_isDigit hdig (by decide), not_eq_of_isDigit hdig (by decide),
        not_eq_of_isDigit hdig (by decide), not_eq_of_isDigit hdig (by decide),
        not_eq_of_isDigit hdig (by decide), not_eq_of_isDigit hdig (by decide),
        isDigit_isWs hdig⟩
    · subst hminus
      exact ⟨by decide, by decide, by decide, by decide, by decide, by decide, by decide⟩
  rw [hct, List.cons_append,
    parseValue_dispatch_number fuel c (t ++ rest) hne.1 hne.2.1 hne.2.2.1 hne.2.2.2.1
      hne.2.2.2.2.1 hne.2.2.2.2.2.1 hne.2.2.2.2.2.2,
    ← List.cons_append, ← hct]
  exact parseNumber_intChars i rest hrest

theorem parseValue_str (fuel : Nat) (s : String) (rest : List Char) :
    parseValue (fuel + 1) (('"' :: (escStr s.data ++ ['"'])) ++ rest)
      = some (.str s, rest) := by
  obtain ⟨cs⟩ := s
  rw [List.cons_append, List.append_assoc, List.singleton_append, parseValue,
    skipWs_not_ws (by decide)]
  simp only [if_neg (by decide : ¬('"' = 'n')), if_neg (by decide : ¬('"' = 't')),
    if_neg (by decide : ¬('"' = 'f')), if_pos rfl]
  simp [psBody_escStr]

theorem parse_render : ∀ fuel : Nat,
    (∀ (v : JValue) (d : Nat) (rest : List Char),
      sizeJ v ≤ fuel → headNotDigit rest = true →
      parseValue fuel (render d v ++ rest) = some (v, rest))
    ∧ (∀ (x : JValue) (xs : List JValue) (e d : Nat) (pre rest : List Char),
      (∀ c ∈ pre, isWsChar c = true) → sizeL (x :: xs) ≤ fuel →
      parseElems fuel
        (pre ++ (render e x ++ (renderTail e xs ++ '\n' :: (ws2 d ++ ']' :: rest))))
        = some (.arr (x :: xs), rest))
    ∧ (∀ (k : String) (v : JValue) (fs : List (String × JValue)) (e d : Nat)
        (pre rest : List Char),
      (∀ c ∈ pre, isWsChar c = true) → sizeO ((k, v) :: fs) ≤ fuel →
      parseMembers fuel
        (pre ++ (renderField e (k, v)
          ++ (renderFieldTail e fs ++ '\n' :: (ws2 d ++ rbr :: rest))))
        = some (.obj ((k, v) :: fs), rest)) := by
  intro fuel
  induction fuel with
  | zero =>
    refine ⟨fun v d rest hs _ => absurd hs (by have := sizeJ_pos v; omega),
      fun x xs e d pre rest _ hs =>
        absurd hs (by simp only [sizeL]; have := sizeL_pos xs; have := sizeJ_pos x; omega),
      fun k v fs e d pre rest _ hs =>
        absurd hs (by simp only [sizeO]; have := sizeO_pos fs; have := sizeJ_pos v; omega)⟩
  | succ fuel ih =>
    obtain ⟨ihP, ihQ, ihR⟩ := ih
    refine ⟨?_, ?_, ?_⟩
    · intro v d rest hs hrest
      cases v with
      | null => rfl
      | bool b => cases b <;> rfl
      | num i => exact parseValue_number fuel i rest hrest
      | str s => exact parseValue_str fuel s rest
      | arr xs =>
        cases xs with
        | nil => rfl
        | cons x xs =>
          obtain ⟨c, t, hct, hgood⟩ := render_head (d + 1) x
          obtain ⟨hws, hrb, _, _, _⟩ := goodHead_spec hgood
          have hsz : sizeL (x :: xs) ≤ fuel := by
            simp only [sizeJ] at hs; omega
          rw [parseValue]
          simp only [render, List.cons_append, List.append_assoc, List.singleton_append]
          rw [skipWs_not_ws (show isWsChar '[' = false by decide)]
          simp only [if_neg (show ¬('[' = 'n') by decide),
            if_neg (show ¬('[' = 't') by decide), if_neg (show ¬('[' = 'f') by decide),
            if_neg (show ¬('[' = '"') by decide), if_pos rfl, if_true]
          rw [skipWs_nl_ws2, hct, List.cons_append, skipWs_not_ws hws]
          simp only [if_neg hrb]
          rw [← List.cons_append, ← hct]
          have hQ := ihQ x xs (d + 1) d [] rest (by simp) hsz
          simpa using hQ
      | obj fs =>
        cases fs with
        | nil => rfl
        | cons f fs =>
          obtain ⟨k, v⟩ := f
          have hsz : sizeO ((k, v) :: fs) ≤ fuel := by
            simp only [sizeJ] at hs; omega
          rw [parseValue]
          simp only [render, List.cons_append, List.append_assoc, List.singleton_append]
          rw [skipWs_not_ws (show isWsChar lbr = false by decide)]
          simp only [if_neg (show ¬(lbr = 'n') by decide),
            if_neg (show ¬(lbr = 't') by decide), if_neg (show ¬(lbr = 'f') by decide),
            if_neg (show ¬(lbr = '"') by decide), if_neg (show ¬(lbr = '[') by decide),
            if_pos rfl, if_true]
          rw [skipWs_nl_ws2]
          simp only [renderField, List.cons_append, List.append_assoc,
            List.singleton_append]
          rw [skipWs_not_ws (show isWsChar '"' = false by decide)]
          simp only [if_neg (show ¬('"' = rbr) by decide)]
          have hR := ihR k v fs (d + 1) d [] rest (by simp) hsz
          simp only [List.nil_append, renderField, List.cons_append, List.append_assoc,
            List.singleton_append] at hR
          simp only [List.nil_append]
          rw [hR]
    · intro x xs e d pre rest hpre hs
      cases fuel with
      | zero =>
        exfalso
        simp only [sizeL] at hs
        have := sizeJ_pos x
        have := sizeL_pos xs
        omega
      | succ f =>
        have hszx : sizeJ x ≤ f + 1 := by
          simp only [sizeL] at hs
          have := sizeL_pos xs
          omega
        have hnd : headNotDigit
            (renderTail e xs ++ '\n' :: (ws2 d ++ ']' :: rest)) = true := by
          cases xs with
          | nil => simp [renderTail, headNotDigit]
          | cons y ys => simp [renderTail, headNotDigit]
        rw [parseElems, parseValue_ws f pre _ hpre,
          ihP x e (renderTail e xs ++ '\n' :: (ws2 d ++ ']' :: rest)) hszx hnd]
        cases xs with
        | nil =>
          simp only [renderTail, List.nil_append]
          rw [skipWs_nl_ws2, skipWs_not_ws (show isWsChar ']' = false by decide)]
          simp [if_neg (show ¬(']' = ',') by decide)]
        | cons y ys =>
          have hszy : sizeL (y :: ys) ≤ f + 1 := by
            simp only [sizeL] at hs ⊢
            have := sizeJ_pos x
            omega
          simp only [renderTail, List.cons_append, List.append_assoc]
          rw [skipWs_not_ws (show isWsChar ',' = false by decide)]
          simp only [if_pos rfl, if_true]
          have hQ := ihQ y ys e d ('\n' :: ws2 e) rest
            (by
              intro c hc
              rcases List.mem_cons.mp hc with hc | hc
              · subst hc; decide
              · exact ws2_all_ws e c hc) hszy
          simp only [List.cons_append, List.append_assoc] at hQ
          rw [hQ]
    · intro k v fs e d pre rest hpre hs
      obtain ⟨kcs⟩ := k
      cases fuel with
      | zero =>
        exfalso
        simp only [sizeO] at hs
        have := sizeJ_pos v
        have := sizeO_pos fs
        omega
      | succ f =>
        have hszv : sizeJ v ≤ f + 1 := by
          simp only [sizeO] at hs
          have := sizeO_pos fs
          omega
        have hnd : headNotDigit
            (renderFieldTail e fs ++ '\n' :: (ws2 d ++ rbr :: rest)) = true := by
          cases fs with
          | nil => simp [renderFieldTail, headNotDigit]
          | cons g gs => simp [renderFieldTail, headNotDigit]
        have hpv : parseValue (f + 1)
            (' ' :: (render e v
              ++ (renderFieldTail e fs ++ '\n' :: (ws2 d ++ rbr :: rest))))
            = some (v, renderFieldTail e fs ++ '\n' :: (ws2 d ++ rbr :: rest)) := by
          have hws1 : ∀ c ∈ [' '], isWsChar c = true := by
            intro c hc
            rcases List.mem_singleton.mp hc with rfl
            decide
          rw [show (' ' :: (render e v
              ++ (renderFieldTail e fs ++ '\n' :: (ws2 d ++ rbr :: rest))))
              = [' '] ++ (render e v
              ++ (renderFieldTail e fs ++ '\n' :: (ws2 d ++ rbr :: rest))) from rfl,
            parseValue_ws f [' '] _ hws1]
          exact ihP v e _ hszv hnd
        rw [parseMembers, skipWs_all_append pre hpre]
        simp only [renderField, List.cons_append, List.append_assoc,
          List.singleton_append]
        rw [skipWs_not_ws (show isWsChar '"' = false by decide)]
        simp only [if_pos rfl, if_true]
        rw [psBody_escStr]
        simp only [if_true, List.nil_append]
        rw [skipWs_not_ws (show isWsChar ':' = false by decide)]
        simp only [if_pos rfl, if_true]
        rw [hpv]
        cases fs with
        | nil =>
          simp only [renderFieldTail, List.nil_append]
          rw [skipWs_nl_ws2, skipWs_not_ws (show isWsChar rbr = false by decide)]
          simp [if_neg (show ¬(rbr = ',') by decide)]
        | cons g gs =>
          obtain ⟨k2, v2⟩ := g
          have hszg : sizeO ((k2, v2) :: gs) ≤ f + 1 := by
            simp only [sizeO] at hs ⊢
            have := sizeJ_pos v
            omega
          simp only [renderFieldTail, List.cons_append, List.append_assoc]
          rw [skipWs_not_ws (show isWsChar ',' = false by decide)]
          simp only [if_pos rfl, if_true]
          have hR := ihR k2 v2 gs e d ('\n' :: ws2 e) rest
            (by
              intro c hc
              rcases List.mem_cons.mp hc with hc | hc
              · subst hc; decide
              · exact ws2_all_ws e c hc) hszg
          simp only [List.cons_append, List.append_assoc] at hR
          rw [hR]

mutual

theorem sizeJ_le_render : ∀ (d : Nat) (v : JValue), sizeJ v ≤ (render d v).length + 1
  | _, .null => by simp [sizeJ, render]
  | _, .bool b => by cases b <;> simp [sizeJ, render]
  | _, .num _ => by simp [sizeJ]
  | _, .str _ => by simp [sizeJ]
  | _, .arr [] => by simp [sizeJ, sizeL, render]
  | d, .arr (x :: xs) => by
      have h1 := sizeJ_le_render (d + 1) x
      have h2 := sizeL_le_renderTail (d + 1) xs
      simp only [sizeJ, sizeL, render, List.length_cons, List.length_append]
      omega
  | _, .obj [] => by simp [sizeJ, sizeO, render]
  | d, .obj ((k, v) :: fs) => by
      have h1 := sizeJ_le_render (d + 1) v
      have h2 := sizeO_le_renderFieldTail (d + 1) fs
      simp only [sizeJ, sizeO, render, renderField, List.length_cons, List.length_append]
      omega

theorem sizeL_le_renderTail : ∀ (d : Nat) (xs : List JValue),
    sizeL xs ≤ (renderTail d xs).length + 1
  | _, [] => by simp [sizeL, renderTail]
  | d, x :: xs => by
      have h1 := sizeJ_le_render d x
      have h2 := sizeL_le_renderTail d xs
      simp only [sizeL, renderTail, List.length_cons, List.length_append]
      omega

theorem sizeO_le_renderFieldTail : ∀ (d : Nat) (fs : List (String × JValue)),
    sizeO fs ≤ (renderFieldTail d fs).length + 1
  | _, [] => by simp [sizeO, renderFieldTail]
  | d, (k, v) :: fs => by
      have h1 := sizeJ_le_render d v
      have h2 := sizeO_le_renderFieldTail d fs
      simp only [sizeO, renderFieldTail, renderField, List.length_cons,
        List.length_append]
      omega

end

/-- C6: serializing any policy-document JSON value with the preview pane's
`JSON.stringify(·, null, 2)` and re-parsing the text with `JSON.parse`
returns a structurally equal value.  `JValue` covers every well-formed
`PolicyDocument` (with numbers restricted to integers). -/
theorem parse_stringify_roundtrip : ∀ v : JValue, parseJson (stringify v) = some v := by
  intro v
  have hsz : sizeJ v ≤ (render 0 v).length + 1 := sizeJ_le_render 0 v
  have h := (parse_render ((render 0 v).length + 1)).1 v 0 [] hsz rfl
  rw [List.append_nil] at h
  have hdata : (stringify v).data = render 0 v := rfl
  rw [parseJson, hdata, h]
  rfl

/-- C7: a manual JSON edit whose text does not parse leaves the in-memory
policy document exactly as it was: the edit is discarded whole. -/
theorem invalid_json_edit_discards :
    ∀ (t : String) (s : EditorState), parseJson t = none →
      handleEditorChange (some t) s = s := by
  intro t s h
  by_cases ht : t = ""
  · simp [handleEditorChange, ht]
  · simp [handleEditorChange, ht, h]

/-- Witness for `invalid_json_edit_discards` on a lone opening brace. -/
theorem invalid_json_edit_discards_witness :
    handleEditorChange (some "\x7b") initialEditorState = initialEditorState :=
  invalid_json_edit_discards "\x7b" initialEditorState rfl

theorem getKey_setObjKey (j : JValue) (k k2 : String) (v : JValue) :
    getKey (setObjKey j k v) k2 = if k2 = k then some v else getKey j k2 := by
  have main : ∀ fs : List (String × JValue),
      Option.map (fun f => f.2)
          (List.find? (fun f => decide (f.1 = k2)) (setKeyList fs k v))
        = if k2 = k then some v
          else Option.map (fun f => f.2) (List.find? (fun f => decide (f.1 = k2)) fs) := by
    intro fs
    induction fs with
    | nil =>
      by_cases h : k2 = k
      · subst h; simp [setKeyList, List.find?]
      · have hne : decide (k = k2) = false := decide_eq_false (fun he => h he.symm)
        simp [setKeyList, List.find?, hne, h]
    | cons f fs ih =>
      obtain ⟨k', v'⟩ := f
      by_cases hk : k' = k
      · subst hk
        simp only [setKeyList, if_pos rfl]
        by_cases h : k2 = k'
        · subst h; simp [List.find?]
        · have h1 : decide (k' = k2) = false := decide_eq_false (fun he => h he.symm)
          simp [List.find?, h1, if_neg h]
      · simp only [setKeyList, if_neg hk]
        by_cases h : k2 = k'
        · have h1 : decide (k' = k2) = true := decide_eq_true h.symm
          have h2 : ¬(k2 = k) := fun he => hk (h.symm.trans he)
          simp [List.find?, h1, if_neg h2]
        · have h1 : decide (k' = k2) = false := decide_eq_false (fun he => h he.symm)
          simp only [List.find?, h1]
          exact ih
  cases j with
  | obj fs => simpa [setObjKey, getKey] using main fs
  | null =>
    by_cases h : k2 = k
    · subst h; simp [setObjKey, getKey, List.find?]
    · have hne : decide (k = k2) = false := decide_eq_false (fun he => h he.symm)
      simp [setObjKey, getKey, List.find?, hne, h]
  | bool b =>
    by_cases h : k2 = k
    · subst h; simp [setObjKey, getKey, List.find?]
    · have hne : decide (k = k2) = false := decide_eq_false (fun he => h he.symm)
      simp [setObjKey, getKey, List.find?, hne, h]
  | num n =>
    by_cases h : k2 = k
    · subst h; simp [setObjKey, getKey, List.find?]
    · have hne : decide (k = k2) = false := decide_eq_false (fun he => h he.symm)
      simp [setObjKey, getKey, List.find?, hne, h]
  | str s =>
    by_cases h : k2 = k
    · subst h; simp [setObjKey, getKey, List.find?]
    · have hne : decide (k = k2) = false := decide_eq_false (fun he => h he.symm)
      simp [setObjKey, getKey, List.find?, hne, h]
  | arr xs =>
    by_cases h : k2 = k
    · subst h; simp [setObjKey, getKey, List.find?]
    · have hne : decide (k = k2) = false := decide_eq_false (fun he => h he.symm)
      simp [setObjKey, getKey, List.find?, hne, h]

theorem asStringList_strList (l : List String) : asStringList (strList l) = some l := by
  induction l with
  | nil => rfl
  | cons s l ih =>
    simp only [strList, List.map_cons, asStringList, List.mapM_cons] at ih ⊢
    simp_all

/-- C8 counterexample: from the initial state, one manual JSON edit
(`handleEditorChange`) produces a reachable state whose
`parameters.effect.allowedValues` is `["Deny"]` while the selected effect is
still `audit` — matching neither `['Modify','Disabled']` nor
`['Audit','Deny','Disabled']`. -/
theorem effect_invariant_breakable :
    (handleEditorChange (some c8BadText) initialEditorState).selectedEffect = "audit"
    ∧ effectAllowedValues
        (handleEditorChange (some c8BadText) initialEditorState).policy
        = some ["Deny"]
    ∧ ¬effectInvariant (handleEditorChange (some c8BadText) initialEditorState) := by
  refine ⟨rfl, rfl, fun hinv => ?_⟩
  rw [effectInvariant,
    show effectAllowedValues
      (handleEditorChange (some c8BadText) initialEditorState).policy
      = some ["Deny"] from rfl,
    show (handleEditorChange (some c8BadText) initialEditorState).selectedEffect
      = "audit" from rfl,
    show expectedAllowed "audit" = ["Audit", "Deny", "Disabled"] from rfl] at hinv
  exact absurd hinv (by decide)

/-- C8 amended: the allowed-values invariant holds in the initial template
state, and every `handleEffectChange` call (re)establishes it for the newly
selected effect, on any state whose policy has the expected object spine;
it is not an invariant of all reachable states, since manual JSON edits
replace the policy without touching the selected effect. -/
theorem effect_invariant_initial_and_effectChange :
    effectInvariant initialEditorState
    ∧ ∀ (s : EditorState) (value : String), effectSpine s.policy = true →
      effectInvariant (handleEffectChange value s) := by
  constructor
  · show effectAllowedValues initialEditorState.policy
      = some (expectedAllowed initialEditorState.selectedEffect)
    rfl
  · intro s value _hspine
    show effectAllowedValues (handleEffectChange value s).policy
      = some (expectedAllowed (handleEffectChange value s).selectedEffect)
    simp only [handleEffectChange, effectAllowedValues, getPath, getKey_setObjKey,
      if_pos rfl, if_neg (show ¬("parameters" = "policyRule") by decide),
      if_neg (show ¬("allowedValues" = "defaultValue") by decide),
      Option.bind_some, asStringList_strList, expectedAllowed]
    by_cases h : toLowerStr value = "modify" <;>
      simp [h, getKey_setObjKey, asStringList_strList]

/-- Witness for `effect_invariant_initial_and_effectChange`: selecting the
modify effect from the initial state yields the modify allowed values. -/
theorem effect_invariant_initial_and_effectChange_witness :
    effectInvariant (handleEffectChange "modify" initialEditorState) :=
  effect_invariant_initial_and_effectChange.2 initialEditorState "modify" rfl

end PolicyGen
